import Mathlib

/-!
Shallow embedding of the "multilayer perceptrons from scratch" notebook.

Tensors are modelled as real-valued functions over `Fin` index types; the
notebook's float arithmetic is idealized by real arithmetic.  The network
functions (`relu`, `softmax`, `net`, `cross_entropy`, `SGD`), the evaluation
metric and the training loop are translated directly from the notebook cells.
Shapes in the notebook that must be nonempty for `nd.max` to be defined are
written `n+1`, `m+1`.
-/

namespace StraightDope

noncomputable section

/-- A dense 2-d tensor of shape `(n, m)` with real entries. -/
abbrev Mat (n m : ℕ) : Type := Fin n → Fin m → ℝ

/-- A dense 1-d tensor of length `m`. -/
abbrev Vec (m : ℕ) : Type := Fin m → ℝ

/-- `nd.dot(X, W)`: matrix product. -/
def ndDot {n k m : ℕ} (X : Mat n k) (W : Mat k m) : Mat n m :=
  fun i j => ∑ l, X i l * W l j

/-- Broadcast addition of a length-`m` row vector to each row of an
`(n, m)` matrix, as in `nd.dot(X, W1) + b1`. -/
def addRow {n m : ℕ} (X : Mat n m) (b : Vec m) : Mat n m :=
  fun i j => X i j + b j

/-- The notebook's `relu`: `nd.maximum(X, nd.zeros_like(X))`, the elementwise
maximum of `X` and a zero tensor of the same shape. -/
def relu {n m : ℕ} (X : Mat n m) : Mat n m :=
  fun i j => max (X i j) 0

/-- `nd.max(y_linear)`: the single scalar maximum over the whole (nonempty)
matrix. -/
def ndMax {n m : ℕ} (Y : Mat (n + 1) (m + 1)) : ℝ :=
  Finset.univ.sup' Finset.univ_nonempty (fun p : Fin (n + 1) × Fin (m + 1) => Y p.1 p.2)

/-- The intermediate `exp = nd.exp(y_linear - nd.max(y_linear))` of the
notebook's `softmax`. -/
def softmaxExp {n m : ℕ} (Y : Mat (n + 1) (m + 1)) : Mat (n + 1) (m + 1) :=
  fun i j => Real.exp (Y i j - ndMax Y)

/-- The `partition = nd.sum(exp, axis=0, exclude=True)` of the notebook's
`softmax`: the per-row sums of the shifted exponentials (summation over every
axis except axis 0). -/
def softmaxPartition {n m : ℕ} (Y : Mat (n + 1) (m + 1)) : Vec (n + 1) :=
  fun i => ∑ j, softmaxExp Y i j

/-- The notebook's `softmax`: shifted exponentials divided row-wise by the
partition. -/
def softmax {n m : ℕ} (Y : Mat (n + 1) (m + 1)) : Mat (n + 1) (m + 1) :=
  fun i j => softmaxExp Y i j / softmaxPartition Y i

/-- The textbook (unshifted) softmax, written from the spec's description of
softmax as "normalization turning a vector of scores into a probability
distribution": `exp(y)` divided row-wise by the row sums of `exp(y)`. -/
def softmaxUnshifted {n m : ℕ} (Y : Mat (n + 1) (m + 1)) : Mat (n + 1) (m + 1) :=
  fun i j => Real.exp (Y i j) / ∑ l, Real.exp (Y i l)

/-- The notebook's `net`: two hidden affine layers each followed by `relu`,
then a third affine layer followed by `softmax`.  The weight and bias
tensors `W1, b1, W2, b2, W3, b3` of the notebook are passed explicitly. -/
def net {n : ℕ} (W1 : Mat 784 256) (b1 : Vec 256) (W2 : Mat 256 128) (b2 : Vec 128)
    (W3 : Mat 128 10) (b3 : Vec 10) (X : Mat (n + 1) 784) : Mat (n + 1) 10 :=
  let h1_linear := addRow (ndDot X W1) b1
  let h1 := relu h1_linear
  let h2_linear := addRow (ndDot h1 W2) b2
  let h2 := relu h2_linear
  let yhat_linear := addRow (ndDot h2 W3) b3
  softmax yhat_linear

/-- The notebook's `cross_entropy`: `- nd.sum(y * nd.log(yhat), axis=0,
exclude=True)`, one scalar per row (the sum runs over every axis except
axis 0, i.e. over the class axis). -/
def cross_entropy {n m : ℕ} (yhat y : Mat n m) : Vec n :=
  fun i => -(∑ j, y i j * Real.log (yhat i j))

/-!
## Parameters, stores and the SGD update

A parameter in the notebook is an `NDArray` with a gradient buffer attached by
`param.attach_grad()`; `SGD` mutates the stored values in place via slice
assignment, `param[:] = param - lr * param.grad`.  In-place mutation is
embedded by explicit state passing: tensors live in a store indexed by object
identities `ι`, and each tensor carries its value buffer and its gradient
buffer as flat lists of reals (the update is elementwise, so shape is
irrelevant here).
-/

/-- A parameter tensor: a value buffer and the gradient buffer attached to it
by `attach_grad`. -/
structure Tensor where
  data : List ℝ
  grad : List ℝ

/-- `param[:] = param - lr * param.grad` on one tensor: the value buffer is
overwritten elementwise in place, the gradient buffer is untouched. -/
def sgdUpdate (lr : ℝ) (t : Tensor) : Tensor :=
  { data := List.zipWith (fun d g => d - lr * g) t.data t.grad, grad := t.grad }

/-- The notebook's `SGD(params, lr)`: a `for` loop over the parameter list,
updating the store at each listed identity in order.  The list itself is
only read. -/
def SGD {ι : Type} [DecidableEq ι] (params : List ι) (lr : ℝ) (σ : ι → Tensor) :
    ι → Tensor :=
  params.foldl (fun s p => Function.update s p (sgdUpdate lr (s p))) σ

/-- A call `SGD(params, lr)` as seen by the caller: the function returns
nothing, so the caller keeps the very same parameter list, and only the
store has changed. -/
def SGDcall {ι : Type} [DecidableEq ι] (params : List ι) (lr : ℝ) (σ : ι → Tensor) :
    List ι × (ι → Tensor) :=
  (params, SGD params lr σ)

/-!
## The training loop

`for e in range(epochs): for i, batch in enumerate(train_data): ...` with
body: compute the loss under `autograd.record()`, call `loss.backward()`,
call `SGD(params, .01)`, then update `moving_loss` from element 0 of the
per-sample loss vector (`np.mean(loss.asnumpy()[0])` is the mean of a single
scalar, i.e. that scalar itself).

The backward pass is not code of this repository.  Modelled from the spec:
"Backward pass — delegated entirely to the external differentiation engine";
it is an abstract store transformer `backward` writing gradients into the
store.  Likewise the per-sample loss vector observed by the loop is abstracted
as `lossVec σ b : ℕ → ℝ` (the loop reads only index 0 of it).
-/

/-- The inner `for i, batch in enumerate(train_data)` loop, carrying the
running index `i`, the store and `moving_loss`.  Each iteration
unconditionally computes the loss, runs the backward pass, applies the SGD
update, and then updates the moving loss from element 0 of the loss vector:
re-initialized at `i = 0`, otherwise `0.99 * prev + 0.01 * current`. -/
def epochBatches {ι B : Type} [DecidableEq ι] (params : List ι) (lr : ℝ)
    (backward : (ι → Tensor) → B → (ι → Tensor))
    (lossVec : (ι → Tensor) → B → (ℕ → ℝ)) :
    ℕ → List B → (ι → Tensor) × ℝ → (ι → Tensor) × ℝ
  | _, [], s => s
  | i, b :: bs, s =>
      let l0 := lossVec s.1 b 0
      let σ := SGD params lr (backward s.1 b)
      let ml := if i = 0 then l0 else 0.99 * s.2 + 0.01 * l0
      epochBatches params lr backward lossVec (i + 1) bs (σ, ml)

/-- One epoch: the inner loop started at batch index 0 over the whole list of
batches. -/
def epochStep {ι B : Type} [DecidableEq ι] (params : List ι) (lr : ℝ)
    (backward : (ι → Tensor) → B → (ι → Tensor))
    (lossVec : (ι → Tensor) → B → (ℕ → ℝ))
    (batches : List B) (s : (ι → Tensor) × ℝ) : (ι → Tensor) × ℝ :=
  epochBatches params lr backward lossVec 0 batches s

/-- The notebook's training loop: `moving_loss = 0.` followed by
`for e in range(epochs)` over full passes of the batch list.  Returns the
final store and the final `moving_loss`. -/
def trainLoop {ι B : Type} [DecidableEq ι] (params : List ι) (lr : ℝ)
    (backward : (ι → Tensor) → B → (ι → Tensor))
    (lossVec : (ι → Tensor) → B → (ℕ → ℝ))
    (epochs : ℕ) (batches : List B) (σ0 : ι → Tensor) : (ι → Tensor) × ℝ :=
  (List.range epochs).foldl (fun s _ => epochStep params lr backward lossVec batches s)
    (σ0, 0)

/-!
## The evaluation metric

`metric = mx.metric.Accuracy()` is created once at module level and never
reset; `evaluate_accuracy` feeds every batch of its iterator into this shared
metric and returns `metric.get()[1]`, the accumulated correct-count divided by
the accumulated instance-count.  Since the network is a pure function of the
(unchanged) parameters, a batch is modelled by the labels together with the
outputs `net(data)` produces for it.
-/

/-- The state of an `mx.metric.Accuracy` instance: accumulated number of
correct predictions and accumulated number of instances. -/
structure AccMetric where
  sumMetric : ℝ
  numInst : ℕ

/-- Index of the first maximal entry of a row of scores, as computed by the
argmax the `Accuracy` metric applies along the class axis. -/
def argmaxRow {k : ℕ} (v : Fin (k + 1) → ℝ) : Fin (k + 1) :=
  (List.finRange (k + 1)).foldl (fun best j => if v best < v j then j else best) 0

/-- One batch as seen by `evaluate_accuracy`: per-sample labels and the
per-sample class scores the network returned for it. -/
structure EvalBatch (k : ℕ) where
  bs : ℕ
  label : Fin bs → Fin (k + 1)
  output : Fin bs → Fin (k + 1) → ℝ

/-- `metric.update([label], [output])`: adds the number of argmax-correct
predictions in the batch to `sum_metric` and the batch size to
`num_inst`. -/
def accUpdate {k : ℕ} (m : AccMetric) (b : EvalBatch k) : AccMetric :=
  { sumMetric :=
      m.sumMetric + (Finset.univ.filter (fun i => argmaxRow (b.output i) = b.label i)).card,
    numInst := m.numInst + b.bs }

/-- The notebook's `evaluate_accuracy`: folds every batch into the shared
module-level metric and returns the new metric state together with
`metric.get()[1] = sum_metric / num_inst`. -/
def evaluate_accuracy {k : ℕ} (batches : List (EvalBatch k)) (m : AccMetric) :
    AccMetric × ℝ :=
  let m1 := batches.foldl accUpdate m
  (m1, m1.sumMetric / (m1.numInst : ℝ))

/-- Number of argmax-correct predictions in a list of batches. -/
def correctCount {k : ℕ} (batches : List (EvalBatch k)) : ℕ :=
  (batches.map (fun b =>
    (Finset.univ.filter (fun i => argmaxRow (b.output i) = b.label i)).card)).sum

/-- Total number of instances in a list of batches. -/
def instCount {k : ℕ} (batches : List (EvalBatch k)) : ℕ :=
  (batches.map (fun b => b.bs)).sum

end

/-! ## Helper lemmas -/

/-- The notebook softmax agrees with the unshifted normalization: the
global-max shift cancels between numerator and denominator. -/
theorem softmax_eq_unshifted {n m : ℕ} (Y : Mat (n + 1) (m + 1)) :
    softmax Y = softmaxUnshifted Y := by
  funext i j
  have hc : ∀ a : ℝ, Real.exp (a - ndMax Y) = Real.exp a * Real.exp (-(ndMax Y)) := by
    intro a
    rw [← Real.exp_add]
    ring_nf
  simp only [softmax, softmaxUnshifted, softmaxExp, softmaxPartition, hc]
  rw [← Finset.sum_mul]
  exact mul_div_mul_right _ _ (Real.exp_ne_zero _)

/-- The partition (per-row sum of shifted exponentials) is positive. -/
theorem softmaxPartition_pos {n m : ℕ} (Y : Mat (n + 1) (m + 1)) (i : Fin (n + 1)) :
    0 < softmaxPartition Y i :=
  Finset.sum_pos (fun _ _ => Real.exp_pos _) Finset.univ_nonempty

/-! ## Claim theorems -/

/-- Claim C1: for every input batch `X` of shape `(n, 784)` (with at least one
row), `net X` is exactly `softmax(relu(relu(X·W1 + b1)·W2 + b2)·W3 + b3)`:
two hidden affine layers each followed by ReLU, then a third affine layer
followed by the softmax normalization; the result type records the output
shape `(n, 10)`. -/
theorem net_forward {n : ℕ} (W1 : Mat 784 256) (b1 : Vec 256) (W2 : Mat 256 128)
    (b2 : Vec 128) (W3 : Mat 128 10) (b3 : Vec 10) (X : Mat (n + 1) 784) :
    net W1 b1 W2 b2 W3 b3 X =
      softmaxUnshifted
        (addRow (ndDot (relu (addRow (ndDot (relu (addRow (ndDot X W1) b1)) W2) b2)) W3) b3) :=
  softmax_eq_unshifted _

/-- Claim C2: every entry of `softmax Y` is non-negative and each row of
`softmax Y` sums to 1, i.e. every row is a probability distribution. -/
theorem softmax_rows_probability {n m : ℕ} (Y : Mat (n + 1) (m + 1)) :
    (∀ i j, 0 ≤ softmax Y i j) ∧ (∀ i, ∑ j, softmax Y i j = 1) := by
  constructor
  · intro i j
    exact div_nonneg (Real.exp_pos _).le (softmaxPartition_pos Y i).le
  · intro i
    rw [show (∑ j, softmax Y i j) = (∑ j, softmaxExp Y i j) / softmaxPartition Y i from
      Finset.sum_div Finset.univ _ _ |>.symm]
    exact div_self (softmaxPartition_pos Y i).ne'

/-- Claim C7: subtracting the global maximum before exponentiating does not
change the result: the implemented softmax equals the unshifted normalization
`exp(Y)` divided row-wise by the row sums of `exp(Y)`. -/
theorem softmax_shift_invariant {n m : ℕ} (Y : Mat (n + 1) (m + 1)) :
    softmax Y = softmaxUnshifted Y :=
  softmax_eq_unshifted Y

/-- Claim C10: `relu X` is the elementwise maximum of `X` and zero, every
entry of `relu X` is non-negative, the shape is preserved (the result is again
an `(n, m)` tensor), and `relu` is idempotent. -/
theorem relu_spec {n m : ℕ} (X : Mat n m) :
    (∀ i j, relu X i j = max (X i j) 0) ∧ (∀ i j, 0 ≤ relu X i j) ∧
      relu (relu X) = relu X := by
  refine ⟨fun i j => rfl, fun i j => le_max_right _ _, ?_⟩
  funext i j
  simp only [relu]
  rw [max_assoc, max_self]

/-- Claim C3: `cross_entropy yhat y` returns one scalar per row, the negative
sum over the class axis of `y * log yhat`; when `y` is one-hot with true class
`c i` in row `i`, row `i` of the result is `-log` of the predicted probability
of that class. -/
theorem cross_entropy_rowwise {n m : ℕ} (yhat y : Mat n m) (c : Fin n → Fin m)
    (hpos : ∀ i j, 0 < yhat i j) (hone : ∀ i j, y i j = if j = c i then 1 else 0) :
    (∀ i, cross_entropy yhat y i = -(∑ j, y i j * Real.log (yhat i j))) ∧
      (∀ i, cross_entropy yhat y i = -Real.log (yhat i (c i))) := by
  refine ⟨fun i => rfl, fun i => ?_⟩
  have h : ∀ j, y i j * Real.log (yhat i j)
      = if j = c i then Real.log (yhat i j) else 0 := by
    intro j
    rw [hone]
    split <;> simp
  simp only [cross_entropy, h]
  rw [Finset.sum_ite_eq' Finset.univ (c i) (fun j => Real.log (yhat i j))]
  simp

/-- Unfolding `SGD` on a cons cell: the head tensor is updated in the store,
then the loop continues over the tail. -/
theorem SGD_cons {ι : Type} [DecidableEq ι] (q : ι) (qs : List ι) (lr : ℝ)
    (σ : ι → Tensor) :
    SGD (q :: qs) lr σ = SGD qs lr (Function.update σ q (sgdUpdate lr (σ q))) := rfl

/-- `SGD` leaves every tensor outside the parameter list unchanged. -/
theorem SGD_outside {ι : Type} [DecidableEq ι] (params : List ι) (lr : ℝ) (p : ι) :
    ∀ σ : ι → Tensor, p ∉ params → SGD params lr σ p = σ p := by
  induction params with
  | nil => intro σ _; rfl
  | cons q qs ih =>
    intro σ h
    have h1 : p ≠ q ∧ p ∉ qs := by simpa [List.mem_cons, not_or] using h
    rw [SGD_cons, ih _ h1.2, Function.update_noteq h1.1]

/-- `SGD` never touches a gradient buffer. -/
theorem SGD_grad_eq {ι : Type} [DecidableEq ι] (params : List ι) (lr : ℝ) (p : ι) :
    ∀ σ : ι → Tensor, (SGD params lr σ p).grad = (σ p).grad := by
  induction params with
  | nil => intro σ; rfl
  | cons q qs ih =>
    intro σ
    rw [SGD_cons, ih]
    rcases eq_or_ne p q with h | h
    · subst h
      rw [Function.update_same]
      rfl
    · rw [Function.update_noteq h]

/-- On a duplicate-free parameter list, each listed tensor receives exactly one
`sgdUpdate`. -/
theorem SGD_mem_eq {ι : Type} [DecidableEq ι] (params : List ι) (lr : ℝ) (p : ι) :
    ∀ σ : ι → Tensor, params.Nodup → p ∈ params →
      SGD params lr σ p = sgdUpdate lr (σ p) := by
  induction params with
  | nil => intro σ _ hp; cases hp
  | cons q qs ih =>
    intro σ hnd hp
    rw [SGD_cons]
    rcases List.mem_cons.mp hp with h | h
    · subst h
      rw [SGD_outside qs lr p _ (List.nodup_cons.mp hnd).1, Function.update_same]
    · have hne : p ≠ q := by
        rintro rfl
        exact (List.nodup_cons.mp hnd).1 h
      rw [ih _ (List.nodup_cons.mp hnd).2 h, Function.update_noteq hne]

/-- Elementwise reading of the in-place update buffer. -/
theorem getD_zipWith_step (lr : ℝ) :
    ∀ (ds gs : List ℝ) (k : ℕ), ds.length = gs.length → k < ds.length →
      (List.zipWith (fun d g => d - lr * g) ds gs).getD k 0
        = ds.getD k 0 - lr * gs.getD k 0 := by
  intro ds
  induction ds with
  | nil => intro gs k _ hk; cases hk
  | cons d ds ih =>
    intro gs k hlen hk
    cases gs with
    | nil => cases hlen
    | cons g gs =>
      cases k with
      | zero => rfl
      | succ k =>
        simpa using ih gs k (Nat.succ_injective hlen) (Nat.lt_of_succ_lt_succ hk)

/-- Claim C4: after `SGD params lr` on a duplicate-free parameter list whose
tensors have gradient buffers of matching length, each listed tensor's value
buffer equals its previous value minus `lr` times its gradient buffer
(elementwise, same length), and every tensor outside the list is unchanged. -/
theorem SGD_param_update {ι : Type} [DecidableEq ι] (params : List ι) (lr : ℝ)
    (σ : ι → Tensor) (hnd : params.Nodup)
    (hlen : ∀ p ∈ params, (σ p).data.length = (σ p).grad.length) :
    (∀ p ∈ params,
        (SGD params lr σ p).data.length = (σ p).data.length ∧
        ∀ k, k < (σ p).data.length →
          (SGD params lr σ p).data.getD k 0
            = (σ p).data.getD k 0 - lr * (σ p).grad.getD k 0) ∧
    (∀ p, p ∉ params → SGD params lr σ p = σ p) := by
  refine ⟨fun p hp => ?_, fun p hp => SGD_outside params lr p σ hp⟩
  rw [SGD_mem_eq params lr p σ hnd hp]
  constructor
  · simp only [sgdUpdate, List.length_zipWith]
    rw [hlen p hp, Nat.min_self]
  · intro k hk
    exact getD_zipWith_step lr (σ p).data (σ p).grad k (hlen p hp) hk

/-- Concrete instance of `SGD_param_update`: a two-parameter store, read at an
identity outside the list. -/
theorem SGD_param_update_witness :
    SGD [0, 1] (2 : ℝ) (fun _ : ℕ => Tensor.mk [1, 2] [3, 4]) 5
      = Tensor.mk [1, 2] [3, 4] :=
  (SGD_param_update [0, 1] 2 (fun _ => Tensor.mk [1, 2] [3, 4]) (by decide)
    (fun _ _ => rfl)).2 5 (by decide)

/-- Claim C5: `SGD` mutates only stored values in place: the caller's
parameter list is returned untouched (same identities, same order), every
gradient buffer — of listed and unlisted tensors alike — is exactly as it was,
and tensors outside the list are wholly unchanged. -/
theorem SGD_in_place_frame {ι : Type} [DecidableEq ι] (params : List ι) (lr : ℝ)
    (σ : ι → Tensor) :
    (SGDcall params lr σ).1 = params ∧
    (∀ p, (SGD params lr σ p).grad = (σ p).grad) ∧
    (∀ p, p ∉ params → SGD params lr σ p = σ p) :=
  ⟨rfl, fun p => SGD_grad_eq params lr p σ, fun p hp => SGD_outside params lr p σ hp⟩

/-- The store component of the inner loop: one `SGD` application per batch,
whatever the loss values are. -/
theorem epochBatches_store {ι B : Type} [DecidableEq ι] (params : List ι) (lr : ℝ)
    (backward : (ι → Tensor) → B → (ι → Tensor))
    (lossVec : (ι → Tensor) → B → (ℕ → ℝ)) :
    ∀ (bs : List B) (i : ℕ) (s : (ι → Tensor) × ℝ),
      (epochBatches params lr backward lossVec i bs s).1
        = bs.foldl (fun σ b => SGD params lr (backward σ b)) s.1 := by
  intro bs
  induction bs with
  | nil => intro i s; rfl
  | cons b bs ih =>
    intro i s
    simp only [epochBatches, List.foldl_cons]
    exact ih (i + 1) _

/-- The store component of the whole loop: the per-batch `SGD` update folded
over the epoch-repeated batch list. -/
theorem trainLoop_store {ι B : Type} [DecidableEq ι] (params : List ι) (lr : ℝ)
    (backward : (ι → Tensor) → B → (ι → Tensor))
    (lossVec : (ι → Tensor) → B → (ℕ → ℝ)) (batches : List B) :
    ∀ (epochs : ℕ) (s : (ι → Tensor) × ℝ),
      ((List.range epochs).foldl
          (fun s _ => epochStep params lr backward lossVec batches s) s).1
        = ((List.replicate epochs batches).flatten).foldl
            (fun σ b => SGD params lr (backward σ b)) s.1 := by
  intro epochs
  induction epochs with
  | zero => intro s; rfl
  | succ e ih =>
    intro s
    rw [List.range_succ, List.foldl_append, List.replicate_succ',
      List.flatten_append, List.foldl_append, ← ih s]
    simp only [List.foldl_cons, List.foldl_nil, List.flatten_cons, List.flatten_nil,
      List.append_nil]
    exact epochBatches_store params lr backward lossVec batches 0 _

/-- The number of iterations of the epoch-repeated batch list. -/
theorem flatten_replicate_length {B : Type} (e : ℕ) (bs : List B) :
    ((List.replicate e bs).flatten).length = e * bs.length := by
  induction e with
  | zero => simp
  | succ e ih =>
    rw [List.replicate_succ, List.flatten_cons, List.length_append, ih]
    ring

/-- The loop state is unchanged if the loss vectors agree at element 0, the
only element the loop ever reads. -/
theorem epochBatches_lossVec_congr {ι B : Type} [DecidableEq ι] (params : List ι)
    (lr : ℝ) (backward : (ι → Tensor) → B → (ι → Tensor))
    (lossVec lossVec' : (ι → Tensor) → B → (ℕ → ℝ))
    (h0 : ∀ σ b, lossVec σ b 0 = lossVec' σ b 0) :
    ∀ (bs : List B) (i : ℕ) (s : (ι → Tensor) × ℝ),
      epochBatches params lr backward lossVec i bs s
        = epochBatches params lr backward lossVec' i bs s := by
  intro bs
  induction bs with
  | nil => intro i s; rfl
  | cons b bs ih =>
    intro i s
    simp only [epochBatches]
    rw [h0 s.1 b]
    exact ih (i + 1) _

/-- Claim C6: the training loop contains no error handling: for every epoch
and every batch it unconditionally runs the backward pass and applies the SGD
update, so the final store is the per-batch `SGD` step folded over the
epoch-repeated batch list — a list of exactly `epochs * batches.length`
iterations — and the parameter trajectory never depends on the observed loss
values (so a NaN loss neither stops the loop, nor skips an update, nor alters
which updates are logged). -/
theorem trainLoop_unconditional {ι B : Type} [DecidableEq ι] (params : List ι)
    (lr : ℝ) (backward : (ι → Tensor) → B → (ι → Tensor))
    (lossVec lossVec' : (ι → Tensor) → B → (ℕ → ℝ))
    (epochs : ℕ) (batches : List B) (σ0 : ι → Tensor) :
    (trainLoop params lr backward lossVec epochs batches σ0).1
        = ((List.replicate epochs batches).flatten).foldl
            (fun σ b => SGD params lr (backward σ b)) σ0 ∧
    ((List.replicate epochs batches).flatten).length = epochs * batches.length ∧
    (trainLoop params lr backward lossVec epochs batches σ0).1
        = (trainLoop params lr backward lossVec' epochs batches σ0).1 := by
  refine ⟨trainLoop_store params lr backward lossVec batches epochs (σ0, 0),
    flatten_replicate_length epochs batches, ?_⟩
  rw [show (trainLoop params lr backward lossVec epochs batches σ0).1
      = ((List.replicate epochs batches).flatten).foldl
          (fun σ b => SGD params lr (backward σ b)) σ0 from
    trainLoop_store params lr backward lossVec batches epochs (σ0, 0)]
  exact (trainLoop_store params lr backward lossVec' batches epochs (σ0, 0)).symm

/-- Claim C9: the printed per-epoch loss is an exponential moving average
computed from element 0 only of each batch's per-sample loss vector: the whole
loop state is unchanged when the loss vectors agree at element 0; the moving
loss is re-initialized at batch index 0 of every epoch (the incoming moving
loss is discarded); and each inner step updates it to the first-sample loss at
index 0 and to `0.99 * previous + 0.01 * current` otherwise. -/
theorem movingLoss_ema {ι B : Type} [DecidableEq ι] (params : List ι) (lr : ℝ)
    (backward : (ι → Tensor) → B → (ι → Tensor))
    (lossVec lossVec' : (ι → Tensor) → B → (ℕ → ℝ))
    (h0 : ∀ σ b, lossVec σ b 0 = lossVec' σ b 0) :
    (∀ (epochs : ℕ) (batches : List B) (σ0 : ι → Tensor),
        trainLoop params lr backward lossVec epochs batches σ0
          = trainLoop params lr backward lossVec' epochs batches σ0) ∧
    (∀ (b : B) (bs : List B) (σ : ι → Tensor) (ml ml' : ℝ),
        epochStep params lr backward lossVec (b :: bs) (σ, ml)
          = epochStep params lr backward lossVec (b :: bs) (σ, ml')) ∧
    (∀ (i : ℕ) (b : B) (bs : List B) (σ : ι → Tensor) (ml : ℝ),
        epochBatches params lr backward lossVec i (b :: bs) (σ, ml)
          = epochBatches params lr backward lossVec (i + 1) bs
              (SGD params lr (backward σ b),
               if i = 0 then lossVec σ b 0 else 0.99 * ml + 0.01 * lossVec σ b 0)) := by
  refine ⟨fun epochs batches σ0 => ?_, fun b bs σ ml ml' => rfl, fun i b bs σ ml => rfl⟩
  have h : (fun (s : (ι → Tensor) × ℝ) (_ : ℕ) =>
        epochStep params lr backward lossVec batches s)
      = (fun s _ => epochStep params lr backward lossVec' batches s) :=
    funext fun s => funext fun _ =>
      epochBatches_lossVec_congr params lr backward lossVec lossVec' h0 batches 0 s
  simp only [trainLoop, epochStep]
  rw [show (fun (s : (ι → Tensor) × ℝ) (_ : ℕ) =>
        epochBatches params lr backward lossVec 0 batches s)
      = (fun s _ => epochBatches params lr backward lossVec' 0 batches s) from h]

/-- Concrete instance of `movingLoss_ema`: two loss vectors that differ away
from element 0 drive the loop to the same final state. -/
theorem movingLoss_ema_witness :
    trainLoop ([] : List ℕ) 1 (fun σ _ => σ) (fun _ _ k => (k : ℝ)) 1 [0]
        (fun _ => Tensor.mk [] [])
      = trainLoop [] 1 (fun σ _ => σ) (fun _ _ k => if k = 0 then (k : ℝ) else 37) 1 [0]
          (fun _ => Tensor.mk [] []) :=
  (movingLoss_ema [] 1 (fun σ _ => σ) (fun _ _ k => (k : ℝ))
    (fun _ _ k => if k = 0 then (k : ℝ) else 37) (fun _ _ => rfl)).1 1 [0]
    (fun _ => Tensor.mk [] [])

/-- Folding batches into the metric adds the correct-count and the
instance-count. -/
theorem foldl_accUpdate {k : ℕ} :
    ∀ (batches : List (EvalBatch k)) (m : AccMetric),
      batches.foldl accUpdate m
        = ⟨m.sumMetric + (correctCount batches : ℝ), m.numInst + instCount batches⟩ := by
  intro batches
  induction batches with
  | nil =>
    intro m
    cases m
    simp [correctCount, instCount]
  | cons b bs ih =>
    intro m
    rw [List.foldl_cons, ih]
    simp only [accUpdate, correctCount, instCount, List.map_cons, List.sum_cons,
      AccMetric.mk.injEq]
    constructor
    · push_cast
      ring
    · omega

/-- Claim C8: `evaluate_accuracy` is not a pure function of its arguments: it
returns the module-level metric's cumulative accuracy — the accumulated
correct-count over every batch of every call so far divided by the accumulated
instance-count — and two successive calls with the same batches and unchanged
outputs can return different values. -/
theorem evaluate_accuracy_stateful :
    (∀ (k : ℕ) (batches : List (EvalBatch k)) (m : AccMetric),
        (evaluate_accuracy batches m).2
          = (m.sumMetric + (correctCount batches : ℝ))
              / ((m.numInst : ℝ) + (instCount batches : ℝ))) ∧
    (evaluate_accuracy [(⟨1, fun _ => 1, fun _ _ => 0⟩ : EvalBatch 1)] ⟨1, 1⟩).2
      ≠ (evaluate_accuracy [(⟨1, fun _ => 1, fun _ _ => 0⟩ : EvalBatch 1)]
          (evaluate_accuracy [(⟨1, fun _ => 1, fun _ _ => 0⟩ : EvalBatch 1)] ⟨1, 1⟩).1).2 := by
  have hacc : ∀ (k : ℕ) (batches : List (EvalBatch k)) (m : AccMetric),
      (evaluate_accuracy batches m).2
        = (m.sumMetric + (correctCount batches : ℝ))
            / ((m.numInst : ℝ) + (instCount batches : ℝ)) := by
    intro k batches m
    simp only [evaluate_accuracy, foldl_accUpdate]
    push_cast
    rfl
  have hargmax : argmaxRow (fun _ : Fin 2 => (0 : ℝ)) = 0 := by
    have h2 : List.finRange 2 = [0, 1] := by decide
    simp [argmaxRow, h2]
  refine ⟨hacc, ?_⟩
  rw [hacc, hacc]
  simp only [evaluate_accuracy, foldl_accUpdate]
  norm_num [correctCount, instCount, hargmax]

/-- Concrete instance of `cross_entropy_rowwise`: a uniform two-class
prediction with the one-hot label on class 0. -/
theorem cross_entropy_rowwise_witness :
    cross_entropy (fun (_ : Fin 1) (_ : Fin 2) => (1 : ℝ) / 2)
        (fun (_ : Fin 1) (j : Fin 2) => if j = (0 : Fin 2) then 1 else 0) 0
      = -Real.log ((1 : ℝ) / 2) :=
  (cross_entropy_rowwise (fun _ _ => (1 : ℝ) / 2)
    (fun _ j => if j = (0 : Fin 2) then 1 else 0) (fun _ => 0)
    (fun _ _ => by norm_num) (fun _ _ => rfl)).2 0

end StraightDope
